import Mathlib

/-!
A shallow embedding of the MIDI file reader and writer of `midi.py`,
together with theorems about its parsing and serialization behaviour.

Byte streams are modelled as `List Nat` (each entry one byte).  The file
object `f` of the Python code is modelled as a cursor over such a list:
`f.read(n)` becomes the pair `(s.take n, s.drop n)`.  This also
reproduces the Python behaviour at end of stream, where `f.read(n)`
returns fewer than `n` bytes and `int.from_bytes` of an empty bytes
object is `0`.

Bitwise operations on bytes are translated arithmetically:
`x & 0x7F` is `x % 128`, `x >> 7 & 1` is `x / 128 % 2`, `x >> 4` is
`x / 16`, `x & 0xF` is `x % 16`, `x >> 15 & 1` is `x / 32768 % 2`, and
`x & 0b11111111111111` (fourteen one bits, exactly as written in the
source) is `x % 16384`.

Fallible operations (`int.to_bytes` raising `OverflowError` when the
value does not fit, calling `.to_bytes` on `None`) are modelled with
`Option`; a failing parse (`assert` failures and `raise MIDIError`)
is modelled with `Except MIDIErr`, the constructors named after the
error kinds of the specification.
-/

/-- `int.from_bytes(bs, byteorder="big")`. -/
def bytesToNat (bs : List Nat) : Nat := bs.foldl (fun a b => a * 256 + b) 0

/-- The digits of `n.to_bytes(k, byteorder="big")` (total helper;
truncates `n` to its low `k` bytes). -/
def natToBytes : Nat → Nat → List Nat
  | 0, _ => []
  | k + 1, n => natToBytes k (n / 256) ++ [n % 256]

/-- `n.to_bytes(k, byteorder="big")`: raises `OverflowError` unless
`n < 256 ^ k`, modelled as `none`. -/
def toBytesBE (k n : Nat) : Option (List Nat) :=
  if n < 256 ^ k then some (natToBytes k n) else none

/-- The error kinds of the specification, mapped onto the distinct
failure points of the source: the `assert` on a chunk id or on the
header length is `FormatError`; the `raise MIDIError` for a division
field with the top bit set is `UnsupportedTimingError`; the
`raise MIDIError` for an unrecognized event type nibble is
`MalformedEventError`. -/
inductive MIDIErr where
  | FormatError
  | UnsupportedTimingError
  | MalformedEventError
deriving DecidableEq, Repr

instance {ε α : Type} [DecidableEq ε] [DecidableEq α] : DecidableEq (Except ε α) := fun a b =>
  match a, b with
  | Except.error x, Except.error y =>
    if h : x = y then Decidable.isTrue (congrArg Except.error h)
    else Decidable.isFalse (fun hc => h (Except.error.inj hc))
  | Except.ok x, Except.ok y =>
    if h : x = y then Decidable.isTrue (congrArg Except.ok h)
    else Decidable.isFalse (fun hc => h (Except.ok.inj hc))
  | Except.error _, Except.ok _ => Decidable.isFalse (fun hc => Except.noConfusion hc)
  | Except.ok _, Except.error _ => Decidable.isFalse (fun hc => Except.noConfusion hc)

/-- The delta-time loop of `MidiEvent.__init__` (midi.py lines 105-110):

    while True:
        self.timedelta = self.timedelta << 7
        raw = int.from_bytes(self._read_bytes(f, 1), byteorder="big")
        self.timedelta += (raw & 0b1111111)
        if not raw >> 7 & 1:
            break

Returns `(value, number of one-byte reads, remaining stream)`.  On an
empty stream `f.read(1)` returns the empty bytes object, `raw` is `0`
and the loop stops, but `_read_bytes` still counted one requested
byte. -/
def parseVarLen (acc : Nat) : List Nat → Nat × Nat × List Nat
  | [] => (acc * 128, 1, [])
  | b :: rest =>
    if b / 128 % 2 = 1 then
      let r := parseVarLen (acc * 128 + b % 128) rest
      (r.1, r.2.1 + 1, r.2.2)
    else (acc * 128 + b % 128, 1, rest)

/-- The meta/system payload length loop of `MidiEvent.__init__`
(midi.py lines 121-128):

    ignore_num = 0
    while True:
        ignore_raw = self._read_bytes(f, 1)
        self._trailing_ignore += ignore_raw
        ignore_raw = int.from_bytes(ignore_raw, byteorder="big")
        ignore_num += ignore_raw & 0b1111111
        if not ignore_raw >> 7 & 1:
            break

Note the accumulator is `+=` of the low seven bits, with no shift.
Returns `(ignore_num, bytes appended to _trailing_ignore, number of
one-byte reads, remaining stream)`. -/
def parseIgnoreLen : List Nat → Nat × List Nat × Nat × List Nat
  | [] => (0, [], 1, [])
  | b :: rest =>
    if b / 128 % 2 = 1 then
      let r := parseIgnoreLen rest
      (b % 128 + r.1, b :: r.2.1, r.2.2.1 + 1, r.2.2.2)
    else (b % 128, [b], 1, rest)

/-- The fields of the Python `MidiEvent` object.  `length` is the
`_length` counter of requested bytes maintained by `_read_bytes`. -/
structure MidiEvent where
  timedelta : Nat
  note : Option Nat
  velocity : Option Nat
  channel : Option Nat
  event_info : Nat
  trailing_ignore : List Nat
  length : Nat
deriving DecidableEq, Repr

/-- `MidiEvent.__init__` (midi.py lines 97-139).  Returns the
constructed event and the remaining stream, or the raised error. -/
def MidiEvent.parse (s : List Nat) : Except MIDIErr (MidiEvent × List Nat) :=
  let v := parseVarLen 0 s
  let td := v.1
  let c1 := v.2.1
  let s1 := v.2.2
  -- self._event_info = int.from_bytes(self._read_bytes(f, 1), ...)
  let ei := bytesToNat (s1.take 1)
  let s2 := s1.drop 1
  let c2 := c1 + 1
  -- event_type = self._event_info >> 4
  let et := ei / 16
  if et = 15 then
    -- if event_subtype == 0xF: ignore one meta event type byte
    let pre := if ei % 16 = 15 then s2.take 1 else []
    let s3 := if ei % 16 = 15 then s2.drop 1 else s2
    let c3 := if ei % 16 = 15 then c2 + 1 else c2
    let r := parseIgnoreLen s3
    let num := r.1
    let lenB := r.2.1
    let c4 := r.2.2.1
    let s4 := r.2.2.2
    Except.ok ({ timedelta := td, note := none, velocity := none, channel := none,
                 event_info := ei,
                 trailing_ignore := pre ++ lenB ++ s4.take num,
                 length := c3 + c4 + num }, s4.drop num)
  else if et = 10 ∨ et = 11 ∨ et = 14 then
    Except.ok ({ timedelta := td, note := none, velocity := none, channel := none,
                 event_info := ei, trailing_ignore := s2.take 2,
                 length := c2 + 2 }, s2.drop 2)
  else if et = 12 ∨ et = 13 then
    Except.ok ({ timedelta := td, note := none, velocity := none, channel := none,
                 event_info := ei, trailing_ignore := s2.take 1,
                 length := c2 + 1 }, s2.drop 1)
  else if et = 8 ∨ et = 9 then
    Except.ok ({ timedelta := td, note := some (bytesToNat (s2.take 1)),
                 velocity := some (bytesToNat ((s2.drop 1).take 1)),
                 channel := some (ei % 16), event_info := ei,
                 trailing_ignore := [],
                 length := c2 + 2 }, (s2.drop 1).drop 1)
  else Except.error .MalformedEventError

/-- The Python `MidiTrack` object stores only its event list; the
declared track length is a local variable of `__init__`. -/
structure MidiTrack where
  events : List MidiEvent
deriving DecidableEq, Repr

/-- The event loop of `MidiTrack.__init__` (midi.py lines 69-72):

    while length:
        event = MidiEvent(f)
        self.events.append(event)
        length -= event._length

The counter is an arbitrary-precision Python integer, so it is
modelled as `Int`; the loop keeps running while it is nonzero
(including negative values, as in Python).  On a finite stream the
loop always terminates, because a successful event parse strictly
shrinks the stream (`MidiEvent.parse_rest_lt`) and the parse of an
empty stream raises `MIDIError` (the status byte reads as `0`, event
type nibble `0`).  To keep the definition structurally recursive (and
hence computable by the kernel) the iteration count is bounded by an
explicit first argument; `parseEvents` below supplies the bound
`s.length + 1`, which is never exhausted, as the equation
`parseEvents_eq` and the fuel-irrelevance lemma `parseEventsAux_irrel`
establish.  The value returned on fuel exhaustion is arbitrary
(unreachable from `parseEvents`). -/
def parseEventsAux : Nat → Int → List Nat → Except MIDIErr (List MidiEvent × List Nat)
  | 0, len, s => if len = 0 then Except.ok ([], s) else Except.error .MalformedEventError
  | fuel + 1, len, s =>
    if len = 0 then Except.ok ([], s)
    else
      match MidiEvent.parse s with
      | Except.error e => Except.error e
      | Except.ok (ev, rest) =>
        match parseEventsAux fuel (len - ev.length) rest with
        | Except.error e => Except.error e
        | Except.ok (evs, rest2) => Except.ok (ev :: evs, rest2)

/-- The event loop of `MidiTrack.__init__`, entered with the iteration
bound `s.length + 1`. -/
def parseEvents (len : Int) (s : List Nat) : Except MIDIErr (List MidiEvent × List Nat) :=
  parseEventsAux (s.length + 1) len s

/-- `MidiTrack.__init__` (midi.py lines 64-72). -/
def MidiTrack.parse (s : List Nat) : Except MIDIErr (MidiTrack × List Nat) :=
  -- assert header == b'MTrk'
  if s.take 4 ≠ [77, 84, 114, 107] then Except.error .FormatError
  else
    let s1 := s.drop 4
    let len := bytesToNat (s1.take 4)
    match parseEvents (len : Int) (s1.drop 4) with
    | Except.error e => Except.error e
    | Except.ok (evs, rest) => Except.ok ({ events := evs }, rest)

/-- The track list comprehension of `MidiFile.__init__` (midi.py line
37): `[MidiTrack(f) for x in range(self._num_tracks)]`. -/
def parseTracks : Nat → List Nat → Except MIDIErr (List MidiTrack × List Nat)
  | 0, s => Except.ok ([], s)
  | n + 1, s =>
    match MidiTrack.parse s with
    | Except.error e => Except.error e
    | Except.ok (t, rest) =>
      match parseTracks n rest with
      | Except.error e => Except.error e
      | Except.ok (ts, rest2) => Except.ok (t :: ts, rest2)

/-- The fields of the Python `MidiFile` object. -/
structure MidiFile where
  length : Nat
  format : Nat
  num_tracks : Nat
  division : Nat
  division_type : Nat
  per_quarter_note : Nat
  trailing : List Nat
  tracks : List MidiTrack
deriving DecidableEq, Repr

/-- `MidiFile.__init__` (midi.py lines 21-37). -/
def MidiFile.parse (s : List Nat) : Except MIDIErr (MidiFile × List Nat) :=
  -- assert header == b'MThd'
  if s.take 4 ≠ [77, 84, 104, 100] then Except.error .FormatError
  else
    let s1 := s.drop 4
    let len := bytesToNat (s1.take 4)
    -- assert self._length >= 6
    if len < 6 then Except.error .FormatError
    else
      let s2 := s1.drop 4
      let format := bytesToNat (s2.take 2)
      let s3 := s2.drop 2
      let ntr := bytesToNat (s3.take 2)
      let s4 := s3.drop 2
      let div := bytesToNat (s4.take 2)
      let s5 := s4.drop 2
      -- self.division_type = self._division >> 15 & 1
      let dtype := div / 32768 % 2
      if dtype = 1 then Except.error .UnsupportedTimingError
      else
        -- self.per_quarter_note = self._division & 0b11111111111111
        let pqn := div % 16384
        -- if self._length > 6: self._trailing = f.read(self._length - 6)
        let trailing := if len > 6 then s5.take (len - 6) else []
        let s6 := if len > 6 then s5.drop (len - 6) else s5
        match parseTracks ntr s6 with
        | Except.error e => Except.error e
        | Except.ok (ts, rest) =>
          Except.ok ({ length := len, format := format, num_tracks := ntr,
                       division := div, division_type := dtype,
                       per_quarter_note := pqn, trailing := trailing,
                       tracks := ts }, rest)

/-- The delta-time encoding loop of `MidiEvent.to_file` (midi.py lines
151-160), building the byte list low group first and prepending:

    while td:
        next_byte = td & 0b1111111
        if not is_first:
            next_byte = next_byte | 0b10000000
        is_first = False
        td = td >> 7
        result = next_byte.to_bytes(1, byteorder="big") + result

Since `td % 128 < 128`, the bitwise or with `0b10000000` is plain
addition of `128`.  The loop runs while `td` is nonzero, dividing it
by `128` each pass, so it iterates at most `td` times; to keep the
definition structurally recursive the iteration count is bounded by an
explicit first argument, passed as `td` itself by `encode_td`, which
is never exhausted (every lemma below assumes `td ≤ fuel`). -/
def encodeVarAux : Nat → Nat → Bool → List Nat → List Nat
  | 0, _, _, acc => acc
  | fuel + 1, td, isFirst, acc =>
    if td = 0 then acc
    else encodeVarAux fuel (td / 128) false
      ((if isFirst then td % 128 else td % 128 + 128) :: acc)

/-- The full delta-time encoder of `MidiEvent.to_file`, including the
`if len(result) == 0: result = bytes(1)` special case for zero. -/
def encode_td (td : Nat) : List Nat :=
  let r := encodeVarAux td td true []
  if r = [] then [0] else r

/-- `MidiEvent.to_file` (midi.py lines 149-170).  `none` models the
exceptions Python can raise there: `OverflowError` from
`int.to_bytes(1, ...)` on a value not fitting one byte, and the
`AttributeError` from `None.to_bytes` when `note` is set but
`velocity` is `None`. -/
def MidiEvent.to_file (e : MidiEvent) : Option (List Nat) :=
  match toBytesBE 1 e.event_info with
  | none => none
  | some eib =>
    match e.note with
    | none => some (encode_td e.timedelta ++ eib ++ e.trailing_ignore)
    | some n =>
      match e.velocity with
      | none => none
      | some v =>
        match toBytesBE 1 n, toBytesBE 1 v with
        | some nb, some vb =>
          some (encode_td e.timedelta ++ eib ++ nb ++ vb ++ e.trailing_ignore)
        | _, _ => none

/-- The serialization loop of `MidiTrack.to_file` (midi.py lines
76-78): concatenate the serialized events in order. -/
def serEvents : List MidiEvent → Option (List Nat)
  | [] => some []
  | e :: es =>
    match e.to_file, serEvents es with
    | some b, some bs => some (b ++ bs)
    | _, _ => none

/-- `MidiTrack.to_file` (midi.py lines 74-84): the length prefix is
`len(result)`, computed from the just-serialized event bytes. -/
def MidiTrack.to_file (t : MidiTrack) : Option (List Nat) :=
  match serEvents t.events with
  | none => none
  | some body =>
    match toBytesBE 4 body.length with
    | none => none
    | some lb => some ([77, 84, 114, 107] ++ lb ++ body)

/-- The serialization loop of `MidiFile.to_file` (midi.py lines
49-50). -/
def serTracks : List MidiTrack → Option (List Nat)
  | [] => some []
  | t :: ts =>
    match t.to_file, serTracks ts with
    | some b, some bs => some (b ++ bs)
    | _, _ => none

/-- `MidiFile.to_file` (midi.py lines 39-51).  The header length,
format, track count and division fields are the stored parsed
values. -/
def MidiFile.to_file (f : MidiFile) : Option (List Nat) :=
  match toBytesBE 4 f.length, toBytesBE 2 f.format, toBytesBE 2 f.num_tracks,
        toBytesBE 2 f.division, serTracks f.tracks with
  | some lb, some fb, some nb, some db, some tb =>
    some ([77, 84, 104, 100] ++ lb ++ fb ++ nb ++ db ++ f.trailing ++ tb)
  | _, _, _, _, _ => none

/-- The clamp expression of the `pitch` editing operation (midi.py
line 198): `max(0, min(127, event.note + amount))`, computed over the
Python integers, hence over `Int`. -/
def clampNote (amount : Int) (n : Nat) : Nat :=
  (max 0 (min 127 ((n : Int) + amount))).toNat

/-- The per-event body of the `pitch` loop (midi.py lines 195-198):
events without a note are skipped, otherwise only `note` is
reassigned. -/
def pitchEvent (amount : Int) (e : MidiEvent) : MidiEvent :=
  match e.note with
  | none => e
  | some n => { e with note := some (clampNote amount n) }

/-- The track/event loops of `pitch` (midi.py lines 194-198) applied
to a list of tracks. -/
def pitchTracks (amount : Int) (ts : List MidiTrack) : List MidiTrack :=
  ts.map (fun t => { events := t.events.map (pitchEvent amount) })

/-- Shape of a payload-length field as the parser consumes it: every
byte except the last carries the continuation bit, and the value is
the sum of the low seven bits of each byte (reproducing the
accumulation `ignore_num += ignore_raw & 0b1111111` of the source,
which adds the groups without shifting). -/
inductive LenEnc : List Nat → Nat → Prop where
  | last (b : Nat) : b < 128 → LenEnc [b] b
  | cont (b : Nat) (bs : List Nat) (n : Nat) :
      128 ≤ b → b < 256 → LenEnc bs n → LenEnc (b :: bs) (b % 128 + n)

/-- Descriptions of the event byte shapes the parser consumes without
error and with every requested byte present, with minimally encoded
delta-times: note on/off events (type nibble 8 or 9), the two-byte
fixed-payload events (nibbles 10, 11, 14), the one-byte fixed-payload
events (nibbles 12, 13), system events (nibble 15, low nibble not 15)
and meta events (status byte 255, with the extra meta-type byte). -/
inductive EvDesc where
  | noteEv (td status note vel : Nat)
  | fixed2 (td status b1 b2 : Nat)
  | fixed1 (td status b1 : Nat)
  | sysEv (td status : Nat) (lenBytes payload : List Nat)
  | metaEv (td metaType : Nat) (lenBytes payload : List Nat)
deriving DecidableEq, Repr

/-- The byte encoding of an event description. -/
def encodeEv : EvDesc → List Nat
  | EvDesc.noteEv td st n v => encode_td td ++ [st, n, v]
  | EvDesc.fixed2 td st b1 b2 => encode_td td ++ [st, b1, b2]
  | EvDesc.fixed1 td st b1 => encode_td td ++ [st, b1]
  | EvDesc.sysEv td st lb p => encode_td td ++ [st] ++ lb ++ p
  | EvDesc.metaEv td mt lb p => encode_td td ++ [255, mt] ++ lb ++ p

/-- Well-formedness of an event description: the status byte is a
byte of the right type nibble, interpreted payload bytes are bytes,
and the length field of a system/meta event is well shaped with group
sum equal to the payload size. -/
def EvDesc.wf : EvDesc → Prop
  | EvDesc.noteEv _ st n v =>
    (st / 16 = 8 ∨ st / 16 = 9) ∧ st < 256 ∧ n < 256 ∧ v < 256
  | EvDesc.fixed2 _ st b1 b2 =>
    (st / 16 = 10 ∨ st / 16 = 11 ∨ st / 16 = 14) ∧ st < 256 ∧ b1 < 256 ∧ b2 < 256
  | EvDesc.fixed1 _ st b1 => (st / 16 = 12 ∨ st / 16 = 13) ∧ st < 256 ∧ b1 < 256
  | EvDesc.sysEv _ st lb p =>
    st / 16 = 15 ∧ st % 16 ≠ 15 ∧ st < 256 ∧ LenEnc lb p.length ∧ ∀ x ∈ p, x < 256
  | EvDesc.metaEv _ mt lb p => mt < 256 ∧ LenEnc lb p.length ∧ ∀ x ∈ p, x < 256

/-- The `MidiEvent` the parser constructs from an encoded
description. -/
def evOf : EvDesc → MidiEvent
  | EvDesc.noteEv td st n v =>
    { timedelta := td, note := some n, velocity := some v, channel := some (st % 16),
      event_info := st, trailing_ignore := [], length := (encode_td td).length + 3 }
  | EvDesc.fixed2 td st b1 b2 =>
    { timedelta := td, note := none, velocity := none, channel := none,
      event_info := st, trailing_ignore := [b1, b2],
      length := (encode_td td).length + 3 }
  | EvDesc.fixed1 td st b1 =>
    { timedelta := td, note := none, velocity := none, channel := none,
      event_info := st, trailing_ignore := [b1],
      length := (encode_td td).length + 2 }
  | EvDesc.sysEv td st lb p =>
    { timedelta := td, note := none, velocity := none, channel := none,
      event_info := st, trailing_ignore := lb ++ p,
      length := (encode_td td).length + 1 + lb.length + p.length }
  | EvDesc.metaEv td mt lb p =>
    { timedelta := td, note := none, velocity := none, channel := none,
      event_info := 255, trailing_ignore := mt :: (lb ++ p),
      length := (encode_td td).length + 2 + lb.length + p.length }

/-- Concatenated encoding of a list of event descriptions. -/
def encodeEvs : List EvDesc → List Nat
  | [] => []
  | d :: ds => encodeEv d ++ encodeEvs ds

/-- The byte encoding of a whole track: chunk id, four-byte big-endian
length of the event bytes, event bytes. -/
def encodeTrack (ds : List EvDesc) : List Nat :=
  [77, 84, 114, 107] ++ natToBytes 4 (encodeEvs ds).length ++ encodeEvs ds

/-- Concatenated encoding of a list of track descriptions. -/
def encodeTracks : List (List EvDesc) → List Nat
  | [] => []
  | ds :: rest => encodeTrack ds ++ encodeTracks rest

/-- Description of a well-formed file stream: a header with declared
length `hlen`, format, division, `hlen - 6` trailing header bytes, and
a list of track descriptions; the track count field is the number of
tracks. -/
structure FileDesc where
  hlen : Nat
  format : Nat
  division : Nat
  htrail : List Nat
  tracks : List (List EvDesc)
deriving Repr

/-- Well-formedness of a file description: fields fit their widths,
the division selects ticks mode (top bit clear), the header trailing
bytes match the declared extra header length, and every track is
well-formed with a length fitting the four-byte field. -/
def FileDesc.wf (fd : FileDesc) : Prop :=
  6 ≤ fd.hlen ∧ fd.hlen < 4294967296 ∧
  fd.format < 65536 ∧
  fd.division < 32768 ∧
  fd.htrail.length = fd.hlen - 6 ∧ (∀ b ∈ fd.htrail, b < 256) ∧
  fd.tracks.length < 65536 ∧
  ∀ ds ∈ fd.tracks, (∀ d ∈ ds, d.wf) ∧ (encodeEvs ds).length < 4294967296

/-- The byte encoding of a file description. -/
def encodeFile (fd : FileDesc) : List Nat :=
  [77, 84, 104, 100] ++ natToBytes 4 fd.hlen ++ natToBytes 2 fd.format
    ++ natToBytes 2 fd.tracks.length ++ natToBytes 2 fd.division
    ++ fd.htrail ++ encodeTracks fd.tracks

/-- The `MidiFile` the parser constructs from an encoded
description. -/
def fileOf (fd : FileDesc) : MidiFile :=
  { length := fd.hlen, format := fd.format, num_tracks := fd.tracks.length,
    division := fd.division, division_type := 0,
    per_quarter_note := fd.division % 16384,
    trailing := fd.htrail,
    tracks := fd.tracks.map (fun ds => { events := ds.map evOf }) }

/-- A concrete well-formed file description: standard header, one
track holding a note-on event and an End of Track meta event. -/
def c1demo : FileDesc :=
  { hlen := 6, format := 0, division := 96, htrail := [],
    tracks := [[EvDesc.noteEv 0 144 60 64, EvDesc.metaEv 0 47 [0] []]] }

/-- A byte stream that is a well-formed standard MIDI file: every
variable-length quantity at a position the MIDI grammar assigns one
(the delta-times of its two real events and the two-byte payload
length `0x81 0x00 = 128` of its first meta event) is in canonical
minimal form, and the track ends with an End of Track meta event
`FF 2F 00`.  The parser, whose payload-length accounting adds the
seven-bit groups without shifting (see C2), computes length `1`
instead of `128` for the first meta event and then re-interprets the
payload interior as events; one of those carries the delta-time bytes
`0x80 0x00`, which decode to `0` but re-serialize as the single byte
`0x00`. -/
def c1cx : List Nat :=
  [77, 84, 104, 100, 0, 0, 0, 6, 0, 0, 0, 1, 0, 96]
  ++ [77, 84, 114, 107, 0, 0, 0, 137]
  ++ [0, 255, 6, 129, 0]
  ++ ([0]
      ++ [128, 0, 144, 60, 64]
      ++ (List.replicate 29 [0, 144, 60, 64]).flatten
      ++ (List.replicate 2 [0, 192, 5]).flatten)
  ++ [0, 255, 47, 0]

/-- What the parsed form of `c1cx` serializes back to: one byte
shorter (the non-minimal delta-time `0x80 0x00` became `0x00`) with a
correspondingly smaller recomputed track length. -/
def c1cxOut : List Nat :=
  [77, 84, 104, 100, 0, 0, 0, 6, 0, 0, 0, 1, 0, 96]
  ++ [77, 84, 114, 107, 0, 0, 0, 136]
  ++ [0, 255, 6, 129, 0]
  ++ ([0]
      ++ [0, 144, 60, 64]
      ++ (List.replicate 29 [0, 144, 60, 64]).flatten
      ++ (List.replicate 2 [0, 192, 5]).flatten)
  ++ [0, 255, 47, 0]

/-- A meta event whose declared payload length is the two-byte
VarLenInt `0x81 0x00`, i.e. the value `128`, followed by two more
bytes. -/
def c2_input : List Nat := [0, 255, 1, 129, 0, 170, 187]

/-- A header-only file whose division field is `0x4000 = 16384`:
timing mode bit (bit 15) clear, bit 14 set. -/
def c3_input : List Nat := [77, 84, 104, 100, 0, 0, 0, 6, 0, 0, 0, 0, 64, 0]

/-- A chain of successful event parses: `ChainParses s evs rest` holds
when the events `evs` parse one after another from `s`, leaving
`rest`. -/
inductive ChainParses : List Nat → List MidiEvent → List Nat → Prop where
  | nil (s : List Nat) : ChainParses s [] s
  | cons {s : List Nat} {e : MidiEvent} {s2 : List Nat} {evs : List MidiEvent}
      {rest : List Nat} :
      MidiEvent.parse s = Except.ok (e, s2) → ChainParses s2 evs rest →
      ChainParses s (e :: evs) rest

/-! Theorems. -/

/-- The delta-time loop never leaves more of the stream than it was
given. -/
theorem parseVarLen_rest_le (acc : Nat) (s : List Nat) :
    (parseVarLen acc s).2.2.length ≤ s.length := by
  induction s generalizing acc with
  | nil => simp [parseVarLen]
  | cons b rest ih =>
    simp only [parseVarLen]
    split
    · exact Nat.le_succ_of_le (ih _)
    · exact Nat.le_succ _

/-- On a nonempty stream the delta-time loop consumes at least one
byte. -/
theorem parseVarLen_rest_lt (acc b : Nat) (rest : List Nat) :
    (parseVarLen acc (b :: rest)).2.2.length ≤ rest.length := by
  simp only [parseVarLen]
  split
  · exact parseVarLen_rest_le _ _
  · exact Nat.le_refl _

/-- The payload-length loop never leaves more of the stream than it
was given. -/
theorem parseIgnoreLen_rest_le (s : List Nat) :
    (parseIgnoreLen s).2.2.2.length ≤ s.length := by
  induction s with
  | nil => simp [parseIgnoreLen]
  | cons b rest ih =>
    simp only [parseIgnoreLen]
    split
    · exact Nat.le_succ_of_le ih
    · exact Nat.le_succ _

/-- A successful event parse strictly shrinks the stream. -/
theorem MidiEvent.parse_rest_lt {s : List Nat} {e : MidiEvent} {rest : List Nat}
    (h : MidiEvent.parse s = Except.ok (e, rest)) : rest.length < s.length := by
  match s with
  | [] =>
    simp [MidiEvent.parse, parseVarLen, bytesToNat] at h
  | b :: bs =>
    have hvl : (parseVarLen 0 (b :: bs)).2.2.length ≤ bs.length :=
      parseVarLen_rest_lt 0 b bs
    simp only [MidiEvent.parse] at h
    split at h
    · -- meta / system events: the remaining stream is a drop of the
      -- ignore-loop remainder, which is a drop of the stream after the
      -- status byte
      split at h
      · have hres : ((parseIgnoreLen (((parseVarLen 0 (b :: bs)).2.2.drop 1).drop 1)).2.2.2.drop
            (parseIgnoreLen (((parseVarLen 0 (b :: bs)).2.2.drop 1).drop 1)).1) = rest :=
          congrArg Prod.snd (Except.ok.inj h)
        have h4 := parseIgnoreLen_rest_le (((parseVarLen 0 (b :: bs)).2.2.drop 1).drop 1)
        have h5 : rest.length ≤
            (parseIgnoreLen (((parseVarLen 0 (b :: bs)).2.2.drop 1).drop 1)).2.2.2.length := by
          rw [← hres]; simp [List.length_drop]
        simp only [List.length_drop, List.length_cons] at h4 h5 ⊢
        omega
      · have hres : ((parseIgnoreLen ((parseVarLen 0 (b :: bs)).2.2.drop 1)).2.2.2.drop
            (parseIgnoreLen ((parseVarLen 0 (b :: bs)).2.2.drop 1)).1) = rest :=
          congrArg Prod.snd (Except.ok.inj h)
        have h4 := parseIgnoreLen_rest_le ((parseVarLen 0 (b :: bs)).2.2.drop 1)
        have h5 : rest.length ≤
            (parseIgnoreLen ((parseVarLen 0 (b :: bs)).2.2.drop 1)).2.2.2.length := by
          rw [← hres]; simp [List.length_drop]
        simp only [List.length_drop, List.length_cons] at h4 h5 ⊢
        omega
    · split at h
      · have hres : (((parseVarLen 0 (b :: bs)).2.2.drop 1).drop 2) = rest :=
          congrArg Prod.snd (Except.ok.inj h)
        have h5 : rest.length ≤ (parseVarLen 0 (b :: bs)).2.2.length := by
          rw [← hres]; simp [List.length_drop]
        simp only [List.length_cons]
        omega
      · split at h
        · have hres : (((parseVarLen 0 (b :: bs)).2.2.drop 1).drop 1) = rest :=
            congrArg Prod.snd (Except.ok.inj h)
          have h5 : rest.length ≤ (parseVarLen 0 (b :: bs)).2.2.length := by
            rw [← hres]; simp [List.length_drop]
          simp only [List.length_cons]
          omega
        · split at h
          · have hres : ((((parseVarLen 0 (b :: bs)).2.2.drop 1).drop 1).drop 1) = rest :=
              congrArg Prod.snd (Except.ok.inj h)
            have h5 : rest.length ≤ (parseVarLen 0 (b :: bs)).2.2.length := by
              rw [← hres]; simp [List.length_drop]
            simp only [List.length_cons]
            omega
          · exact absurd h (by simp)

/-- Any two sufficiently large iteration bounds give the same result:
each loop iteration consumes at least one byte of the stream. -/
theorem parseEventsAux_irrel (fuel : Nat) : ∀ (fuel2 : Nat) (len : Int) (s : List Nat),
    s.length < fuel → s.length < fuel2 →
    parseEventsAux fuel len s = parseEventsAux fuel2 len s := by
  induction fuel with
  | zero => intro fuel2 len s h; omega
  | succ fuel ih =>
    intro fuel2 len s h h2
    match fuel2, h2 with
    | fuel2 + 1, _ =>
      simp only [parseEventsAux]
      by_cases hl : len = 0
      · simp [hl]
      · simp only [hl, if_false]
        match hp : MidiEvent.parse s with
        | Except.error e => rfl
        | Except.ok (ev, rest) =>
          have hrest : rest.length < s.length := MidiEvent.parse_rest_lt hp
          dsimp only
          rw [ih fuel2 (len - ev.length) rest (by omega) (by omega)]

/-- The loop equation satisfied by `parseEvents`: the direct
transcription of the `while length:` loop of the source. -/
theorem parseEvents_eq (len : Int) (s : List Nat) :
    parseEvents len s =
      if len = 0 then Except.ok ([], s)
      else
        match MidiEvent.parse s with
        | Except.error e => Except.error e
        | Except.ok (ev, rest) =>
          match parseEvents (len - ev.length) rest with
          | Except.error e => Except.error e
          | Except.ok (evs, rest2) => Except.ok (ev :: evs, rest2) := by
  show parseEventsAux (s.length + 1) len s = _
  simp only [parseEventsAux]
  by_cases hl : len = 0
  · simp [hl]
  · simp only [hl, if_false]
    match hp : MidiEvent.parse s with
    | Except.error e => rfl
    | Except.ok (ev, rest) =>
      have hrest : rest.length < s.length := MidiEvent.parse_rest_lt hp
      dsimp only
      rw [parseEventsAux_irrel s.length (rest.length + 1) (len - ev.length) rest
        (by omega) (by omega)]
      rfl

/-- Encoding zero appends nothing, for any iteration bound. -/
theorem encodeVarAux_zero (fuel : Nat) (f : Bool) (acc : List Nat) :
    encodeVarAux fuel 0 f acc = acc := by
  cases fuel <;> simp [encodeVarAux]

/-- The encoder loop prepends onto its accumulator. -/
theorem encodeVarAux_append (fuel : Nat) : ∀ (td : Nat) (f : Bool) (acc : List Nat),
    td ≤ fuel → encodeVarAux fuel td f acc = encodeVarAux fuel td f [] ++ acc := by
  induction fuel with
  | zero => intro td f acc h; simp [encodeVarAux]
  | succ fuel ih =>
    intro td f acc h
    by_cases h0 : td = 0
    · simp [h0, encodeVarAux]
    · have hle : td / 128 ≤ fuel := by
        have := Nat.div_lt_self (Nat.pos_of_ne_zero h0) (show 1 < 128 by norm_num)
        omega
      simp only [encodeVarAux, h0, if_false]
      rw [ih _ _ _ hle]
      conv_rhs => rw [ih _ _ _ hle]
      simp

/-- Every byte the encoder produces with the continuation flag forced
(`isFirst = false`) lies in `[128, 256)`. -/
theorem encodeVarAux_interior_bytes (fuel : Nat) : ∀ (td : Nat), td ≤ fuel →
    ∀ b ∈ encodeVarAux fuel td false [], 128 ≤ b ∧ b < 256 := by
  induction fuel with
  | zero => intro td h b hb; simp [encodeVarAux] at hb
  | succ fuel ih =>
    intro td h b hb
    by_cases h0 : td = 0
    · simp [h0, encodeVarAux] at hb
    · have hle : td / 128 ≤ fuel := by
        have := Nat.div_lt_self (Nat.pos_of_ne_zero h0) (show 1 < 128 by norm_num)
        omega
      simp only [encodeVarAux, h0, if_false] at hb
      rw [encodeVarAux_append _ _ _ _ hle] at hb
      rcases List.mem_append.mp hb with hb | hb
      · exact ih _ hle b hb
      · have hmod : td % 128 < 128 := Nat.mod_lt td (by norm_num)
        have hbe : b = td % 128 + 128 := by simpa using hb
        omega

/-- Decoding the interior form of the encoder output (all bytes carry
the continuation bit, as produced below the most significant group)
accumulates the encoded value and continues into the rest of the
stream. -/
theorem parseVarLen_encodeVarAux (fuel : Nat) : ∀ (td : Nat), td ≤ fuel → td ≠ 0 →
    ∀ (a : Nat) (rest : List Nat),
      parseVarLen a (encodeVarAux fuel td false [] ++ rest) =
        ((parseVarLen (a * 128 ^ (encodeVarAux fuel td false []).length + td) rest).1,
         (parseVarLen (a * 128 ^ (encodeVarAux fuel td false []).length + td) rest).2.1
           + (encodeVarAux fuel td false []).length,
         (parseVarLen (a * 128 ^ (encodeVarAux fuel td false []).length + td) rest).2.2) := by
  induction fuel with
  | zero => intro td h htd; omega
  | succ fuel ih =>
    intro td hfuel htd a rest
    have hmod : td % 128 < 128 := Nat.mod_lt td (by norm_num)
    have hle : td / 128 ≤ fuel := by
      have := Nat.div_lt_self (Nat.pos_of_ne_zero htd) (show 1 < 128 by norm_num)
      omega
    by_cases h0 : td / 128 = 0
    · have htdlt : td < 128 := by omega
      have hself : td % 128 = td := Nat.mod_eq_of_lt htdlt
      have henc : encodeVarAux (fuel + 1) td false [] = [td % 128 + 128] := by
        simp only [encodeVarAux, htd, if_false]
        rw [h0, encodeVarAux_zero]
        simp
      rw [henc]
      simp only [List.cons_append, List.nil_append, List.length_cons, List.length_nil]
      rw [parseVarLen]
      have hdiv : (td % 128 + 128) / 128 % 2 = 1 := by omega
      have hm : (td % 128 + 128) % 128 = td := by omega
      simp only [hdiv, if_pos]
      rw [hm]
      have hpow : a * 128 ^ 1 + td = a * 128 + td := by ring
      rw [hpow]
    · have henc : encodeVarAux (fuel + 1) td false [] =
          encodeVarAux fuel (td / 128) false [] ++ [td % 128 + 128] := by
        simp only [encodeVarAux, htd, if_false]
        rw [encodeVarAux_append _ _ _ _ hle]
        simp
      rw [henc, List.append_assoc]
      rw [ih _ hle h0]
      have hstep : parseVarLen (a * 128 ^ (encodeVarAux fuel (td / 128) false []).length
            + td / 128) ([td % 128 + 128] ++ rest) =
          ((parseVarLen ((a * 128 ^ (encodeVarAux fuel (td / 128) false []).length
              + td / 128) * 128 + td % 128) rest).1,
           (parseVarLen ((a * 128 ^ (encodeVarAux fuel (td / 128) false []).length
              + td / 128) * 128 + td % 128) rest).2.1 + 1,
           (parseVarLen ((a * 128 ^ (encodeVarAux fuel (td / 128) false []).length
              + td / 128) * 128 + td % 128) rest).2.2) := by
        show parseVarLen _ ((td % 128 + 128) :: rest) = _
        rw [parseVarLen]
        have hdiv : (td % 128 + 128) / 128 % 2 = 1 := by omega
        have hm : (td % 128 + 128) % 128 = td % 128 := by omega
        simp only [hdiv, if_pos]
        rw [hm]
      rw [hstep]
      have hacc : (a * 128 ^ (encodeVarAux fuel (td / 128) false []).length + td / 128) * 128
          + td % 128 = a * 128 ^ ((encodeVarAux fuel (td / 128) false []).length + 1) + td := by
        have h1 : a * 128 ^ ((encodeVarAux fuel (td / 128) false []).length + 1) =
            a * 128 ^ (encodeVarAux fuel (td / 128) false []).length * 128 := by ring
        rw [h1]
        omega
      rw [hacc]
      simp [List.length_append]
      omega

/-- `encode_td 0 = [0]`: the zero delta-time encodes as the single
zero byte inserted by `if len(result) == 0`. -/
theorem encode_td_zero : encode_td 0 = [0] := rfl

/-- For a nonzero value the encoder output is the interior groups (all
with the continuation bit) followed by the low seven bits as the final
byte (without it). -/
theorem encode_td_eq (v : Nat) (hv : v ≠ 0) :
    encode_td v = encodeVarAux (v - 1) (v / 128) false [] ++ [v % 128] := by
  obtain ⟨k, rfl⟩ : ∃ k, v = k + 1 :=
    ⟨v - 1, (Nat.succ_pred_eq_of_pos (Nat.pos_of_ne_zero hv)).symm⟩
  have hle : (k + 1) / 128 ≤ k := by
    have := Nat.div_lt_self (show 0 < k + 1 by omega) (show 1 < 128 by norm_num)
    omega
  show (let r := encodeVarAux (k + 1) (k + 1) true []
        if r = [] then [0] else r) = _
  simp only [encodeVarAux, if_false]
  rw [encodeVarAux_append _ _ _ _ hle]
  simp

/-- Round trip of the delta-time codec: decoding an encoded value from
the front of any stream returns the value, consumes exactly the
encoded bytes, and leaves the rest. -/
theorem parseVarLen_encode_td (v : Nat) (rest : List Nat) :
    parseVarLen 0 (encode_td v ++ rest) = (v, (encode_td v).length, rest) := by
  by_cases hv : v = 0
  · subst hv
    rw [encode_td_zero]
    simp [parseVarLen]
  · rw [encode_td_eq v hv]
    have hle : v / 128 ≤ v - 1 := by
      have := Nat.div_lt_self (Nat.pos_of_ne_zero hv) (show 1 < 128 by norm_num)
      omega
    by_cases h0 : v / 128 = 0
    · have hvlt : v < 128 := by omega
      rw [h0, encodeVarAux_zero]
      simp only [List.nil_append, List.cons_append, List.length_cons, List.length_nil]
      rw [parseVarLen]
      have hdiv : ¬ v % 128 / 128 % 2 = 1 := by omega
      simp only [hdiv, if_false]
      have hm : v % 128 % 128 = v := by omega
      rw [hm]
      simp
    · rw [List.append_assoc]
      rw [parseVarLen_encodeVarAux (v - 1) (v / 128) hle h0 0 ([v % 128] ++ rest)]
      have hstep : parseVarLen (0 * 128 ^ (encodeVarAux (v - 1) (v / 128) false []).length
            + v / 128) ([v % 128] ++ rest) = (v, 1, rest) := by
        show parseVarLen _ ((v % 128) :: rest) = _
        rw [parseVarLen]
        have hdiv : ¬ v % 128 / 128 % 2 = 1 := by omega
        simp only [hdiv, if_false]
        have h1 : 0 * 128 ^ (encodeVarAux (v - 1) (v / 128) false []).length + v / 128
            = v / 128 := by ring
        rw [h1]
        have : v / 128 * 128 + v % 128 % 128 = v := by omega
        rw [this]
      rw [hstep]
      simp [List.length_append]
      omega

/-- `natToBytes` always produces exactly `k` digits. -/
theorem natToBytes_length (k : Nat) : ∀ n, (natToBytes k n).length = k := by
  induction k with
  | zero => intro n; rfl
  | succ k ih => intro n; simp [natToBytes, ih]

/-- Folding the big-endian digit accumulator over `natToBytes k n`
starting from `a` yields `a * 256 ^ k + n`, provided `n` fits. -/
theorem foldl_natToBytes (k : Nat) : ∀ (a n : Nat), n < 256 ^ k →
    (natToBytes k n).foldl (fun x b => x * 256 + b) a = a * 256 ^ k + n := by
  induction k with
  | zero =>
    intro a n h
    simp only [pow_zero] at h
    interval_cases n
    simp [natToBytes]
  | succ k ih =>
    intro a n h
    have hdiv : n / 256 < 256 ^ k := by
      rw [Nat.div_lt_iff_lt_mul (by norm_num)]
      calc n < 256 ^ (k + 1) := h
        _ = 256 ^ k * 256 := by ring
    simp only [natToBytes, List.foldl_append, ih a (n / 256) hdiv]
    simp only [List.foldl_cons, List.foldl_nil]
    have h1 : a * 256 ^ (k + 1) = a * 256 ^ k * 256 := by ring
    rw [h1]
    omega

/-- `int.from_bytes` inverts `to_bytes` for values in range. -/
theorem bytesToNat_natToBytes (k n : Nat) (h : n < 256 ^ k) :
    bytesToNat (natToBytes k n) = n := by
  have := foldl_natToBytes k 0 n h
  simpa [bytesToNat] using this

@[simp]
theorem bytesToNat_singleton (b : Nat) : bytesToNat [b] = b := by
  simp [bytesToNat]

/-- `b.to_bytes(1, "big")` of a byte is that byte. -/
theorem toBytesBE_one (b : Nat) (h : b < 256) : toBytesBE 1 b = some [b] := by
  simp [toBytesBE, h, natToBytes, Nat.mod_eq_of_lt h]

/-- The ignore-length loop on a well-shaped length field consumes
exactly the field, returns its group sum, and stores the field bytes
verbatim. -/
theorem parseIgnoreLen_lenEnc {lb : List Nat} {n : Nat} (h : LenEnc lb n) (t : List Nat) :
    parseIgnoreLen (lb ++ t) = (n, lb, lb.length, t) := by
  induction h with
  | last b hb =>
    have h1 : ¬ b / 128 % 2 = 1 := by omega
    simp [parseIgnoreLen, h1, Nat.mod_eq_of_lt hb]
  | cont b bs m hb1 hb2 henc ih =>
    have h1 : b / 128 % 2 = 1 := by omega
    simp [parseIgnoreLen, h1, ih]

/-- Round trip of a single event: parsing the encoding of a
well-formed description (followed by anything) returns the described
event and the tail; serializing that event reproduces exactly the
encoded bytes; and the internal consumed-byte counter equals the size
of the encoding. -/
theorem evRoundTrip (d : EvDesc) (hwf : d.wf) (tail : List Nat) :
    MidiEvent.parse (encodeEv d ++ tail) = Except.ok (evOf d, tail) ∧
    (evOf d).to_file = some (encodeEv d) ∧
    (evOf d).length = (encodeEv d).length := by
  cases d with
  | noteEv td st n v =>
    obtain ⟨hst, hst256, hn, hv⟩ := hwf
    refine ⟨?_, ?_, ?_⟩
    · have hshape : encodeEv (EvDesc.noteEv td st n v) ++ tail
          = encode_td td ++ (st :: n :: v :: tail) := by
        simp [encodeEv]
      rcases hst with h | h <;>
        · rw [hshape]
          simp [MidiEvent.parse, parseVarLen_encode_td, h, evOf]
    · simp [MidiEvent.to_file, evOf, toBytesBE_one, hst256, hn, hv, encodeEv]
    · simp [evOf, encodeEv]
  | fixed2 td st b1 b2 =>
    obtain ⟨hst, hst256, h1, h2⟩ := hwf
    refine ⟨?_, ?_, ?_⟩
    · have hshape : encodeEv (EvDesc.fixed2 td st b1 b2) ++ tail
          = encode_td td ++ (st :: b1 :: b2 :: tail) := by
        simp [encodeEv]
      rcases hst with h | h | h <;>
        · rw [hshape]
          simp [MidiEvent.parse, parseVarLen_encode_td, h, evOf]
    · simp [MidiEvent.to_file, evOf, toBytesBE_one, hst256, encodeEv]
    · simp [evOf, encodeEv]
  | fixed1 td st b1 =>
    obtain ⟨hst, hst256, h1⟩ := hwf
    refine ⟨?_, ?_, ?_⟩
    · have hshape : encodeEv (EvDesc.fixed1 td st b1) ++ tail
          = encode_td td ++ (st :: b1 :: tail) := by
        simp [encodeEv]
      rcases hst with h | h <;>
        · rw [hshape]
          simp [MidiEvent.parse, parseVarLen_encode_td, h, evOf]
    · simp [MidiEvent.to_file, evOf, toBytesBE_one, hst256, encodeEv]
    · simp [evOf, encodeEv]
  | sysEv td st lb p =>
    obtain ⟨hst, hsub, hst256, hlen, hp⟩ := hwf
    refine ⟨?_, ?_, ?_⟩
    · have hshape : encodeEv (EvDesc.sysEv td st lb p) ++ tail
          = encode_td td ++ (st :: (lb ++ (p ++ tail))) := by
        simp [encodeEv]
      rw [hshape]
      simp only [MidiEvent.parse, parseVarLen_encode_td]
      simp only [List.take_succ_cons, List.take_zero, bytesToNat_singleton,
        List.drop_succ_cons, List.drop_zero]
      simp only [hst, if_pos, hsub, if_neg, if_false]
      rw [parseIgnoreLen_lenEnc hlen (p ++ tail)]
      simp only [List.take_left' rfl, List.drop_left' rfl]
      simp [evOf]
    · simp [MidiEvent.to_file, evOf, toBytesBE_one, hst256, encodeEv]
    · simp [evOf, encodeEv]
      omega
  | metaEv td mt lb p =>
    obtain ⟨hmt, hlen, hp⟩ := hwf
    refine ⟨?_, ?_, ?_⟩
    · have hshape : encodeEv (EvDesc.metaEv td mt lb p) ++ tail
          = encode_td td ++ (255 :: mt :: (lb ++ (p ++ tail))) := by
        simp [encodeEv]
      rw [hshape]
      simp only [MidiEvent.parse, parseVarLen_encode_td]
      simp only [List.take_succ_cons, List.take_zero, bytesToNat_singleton,
        List.drop_succ_cons, List.drop_zero]
      norm_num
      rw [parseIgnoreLen_lenEnc hlen (p ++ tail)]
      simp only [List.take_left' rfl, List.drop_left' rfl]
      simp [evOf]
    · simp [MidiEvent.to_file, evOf, toBytesBE_one, hmt, encodeEv]
    · simp [evOf, encodeEv]
      omega

/-- `encode_td` never returns the empty sequence. -/
theorem encode_td_ne_nil (v : Nat) : encode_td v ≠ [] := by
  by_cases hv : v = 0
  · subst hv; rw [encode_td_zero]; simp
  · rw [encode_td_eq v hv]; simp

/-- Every event encoding is nonempty. -/
theorem encodeEv_ne_nil (d : EvDesc) : encodeEv d ≠ [] := by
  cases d <;> simp [encodeEv, encode_td_ne_nil]

/-- The event loop consumes a well-formed event sequence whose total
size is the countdown value, and stops exactly when the countdown
reaches zero. -/
theorem evsRoundTrip (ds : List EvDesc) (h : ∀ d ∈ ds, d.wf) (tail : List Nat) :
    parseEvents ((encodeEvs ds).length : Int) (encodeEvs ds ++ tail) =
      Except.ok (ds.map evOf, tail) := by
  induction ds with
  | nil =>
    rw [parseEvents_eq]
    simp [encodeEvs]
  | cons d ds ih =>
    have hd : d.wf := h d (List.mem_cons_self d ds)
    have hds : ∀ x ∈ ds, x.wf := fun x hx => h x (List.mem_cons_of_mem d hx)
    have hne : (encodeEv d).length ≠ 0 := by
      simpa using encodeEv_ne_nil d
    rw [parseEvents_eq]
    have hlen0 : ((encodeEvs (d :: ds)).length : Int) ≠ 0 := by
      simp only [encodeEvs, List.length_append]
      omega
    simp only [hlen0, if_false]
    have hshape : encodeEvs (d :: ds) ++ tail = encodeEv d ++ (encodeEvs ds ++ tail) := by
      simp [encodeEvs]
    rw [hshape, (evRoundTrip d hd (encodeEvs ds ++ tail)).1]
    have harith : ((encodeEvs (d :: ds)).length : Int) - (evOf d).length
        = ((encodeEvs ds).length : Int) := by
      have he := (evRoundTrip d hd []).2.2
      simp only [encodeEvs, List.length_append, he]
      push_cast
      ring
    dsimp only
    rw [harith, ih hds]
    simp

/-- Serializing the events of a well-formed description list
reproduces their concatenated encoding. -/
theorem serEvents_map (ds : List EvDesc) (h : ∀ d ∈ ds, d.wf) :
    serEvents (ds.map evOf) = some (encodeEvs ds) := by
  induction ds with
  | nil => rfl
  | cons d ds ih =>
    have hd : d.wf := h d (List.mem_cons_self d ds)
    have hds : ∀ x ∈ ds, x.wf := fun x hx => h x (List.mem_cons_of_mem d hx)
    simp only [List.map_cons, serEvents, (evRoundTrip d hd []).2.1, ih hds, encodeEvs]

/-- Round trip of a whole track chunk. -/
theorem trackRoundTrip (ds : List EvDesc) (h : ∀ d ∈ ds, d.wf)
    (hlen : (encodeEvs ds).length < 4294967296) (tail : List Nat) :
    MidiTrack.parse (encodeTrack ds ++ tail) =
      Except.ok ({ events := ds.map evOf }, tail) ∧
    MidiTrack.to_file { events := ds.map evOf } = some (encodeTrack ds) := by
  constructor
  · have hshape : encodeTrack ds ++ tail =
        [77, 84, 114, 107] ++ (natToBytes 4 (encodeEvs ds).length ++ (encodeEvs ds ++ tail)) := by
      simp [encodeTrack]
    rw [hshape]
    simp only [MidiTrack.parse]
    rw [List.take_left' (by rfl), List.drop_left' (by rfl)]
    rw [List.take_left' (natToBytes_length 4 _), List.drop_left' (natToBytes_length 4 _)]
    rw [bytesToNat_natToBytes 4 _ hlen]
    rw [evsRoundTrip ds h tail]
    simp
  · simp only [MidiTrack.to_file, serEvents_map ds h]
    have : toBytesBE 4 (encodeEvs ds).length = some (natToBytes 4 (encodeEvs ds).length) := by
      simp [toBytesBE, hlen]
    rw [this]
    simp [encodeTrack]

/-- The track loop consumes exactly the encoded tracks. -/
theorem tracksRoundTrip (ts : List (List EvDesc))
    (h : ∀ ds ∈ ts, (∀ d ∈ ds, d.wf) ∧ (encodeEvs ds).length < 4294967296)
    (tail : List Nat) :
    parseTracks ts.length (encodeTracks ts ++ tail) =
      Except.ok (ts.map (fun ds => { events := ds.map evOf }), tail) := by
  induction ts with
  | nil => rfl
  | cons ds ts ih =>
    have hd := h ds (List.mem_cons_self ds ts)
    have hts : ∀ x ∈ ts, (∀ d ∈ x, d.wf) ∧ (encodeEvs x).length < 4294967296 :=
      fun x hx => h x (List.mem_cons_of_mem ds hx)
    have hshape : encodeTracks (ds :: ts) ++ tail = encodeTrack ds ++ (encodeTracks ts ++ tail) := by
      simp [encodeTracks]
    simp only [List.length_cons, parseTracks, hshape]
    rw [(trackRoundTrip ds hd.1 hd.2 (encodeTracks ts ++ tail)).1]
    dsimp only
    rw [ih hts]
    simp

/-- Serializing the tracks of a well-formed description reproduces
their concatenated encoding. -/
theorem serTracks_map (ts : List (List EvDesc))
    (h : ∀ ds ∈ ts, (∀ d ∈ ds, d.wf) ∧ (encodeEvs ds).length < 4294967296) :
    serTracks (ts.map (fun ds => { events := ds.map evOf })) = some (encodeTracks ts) := by
  induction ts with
  | nil => rfl
  | cons ds ts ih =>
    have hd := h ds (List.mem_cons_self ds ts)
    have hts : ∀ x ∈ ts, (∀ d ∈ x, d.wf) ∧ (encodeEvs x).length < 4294967296 :=
      fun x hx => h x (List.mem_cons_of_mem ds hx)
    simp only [List.map_cons, serTracks, (trackRoundTrip ds hd.1 hd.2 []).2, ih hts, encodeTracks]

/-- Parsing a well-formed file stream succeeds, consumes the whole
stream, and yields the described structure. -/
theorem fileParse (fd : FileDesc) (hwf : fd.wf) :
    MidiFile.parse (encodeFile fd) = Except.ok (fileOf fd, []) := by
  obtain ⟨h6, h32, hfmt, hdiv, htr, htrb, hnt, hts⟩ := hwf
  have hshape : encodeFile fd =
      [77, 84, 104, 100] ++ (natToBytes 4 fd.hlen ++ (natToBytes 2 fd.format
        ++ (natToBytes 2 fd.tracks.length ++ (natToBytes 2 fd.division
        ++ (fd.htrail ++ encodeTracks fd.tracks))))) := by
    simp [encodeFile]
  rw [hshape]
  simp only [MidiFile.parse]
  rw [List.take_left' (by rfl), List.drop_left' (by rfl)]
  rw [List.take_left' (natToBytes_length 4 _), List.drop_left' (natToBytes_length 4 _)]
  rw [bytesToNat_natToBytes 4 _ h32]
  rw [List.take_left' (natToBytes_length 2 _), List.drop_left' (natToBytes_length 2 _)]
  rw [bytesToNat_natToBytes 2 _ hfmt]
  rw [List.take_left' (natToBytes_length 2 _), List.drop_left' (natToBytes_length 2 _)]
  rw [bytesToNat_natToBytes 2 _ hnt]
  rw [List.take_left' (natToBytes_length 2 _), List.drop_left' (natToBytes_length 2 _)]
  rw [bytesToNat_natToBytes 2 _ (by omega)]
  have hnot6 : ¬ fd.hlen < 6 := by omega
  have hd0 : fd.division / 32768 % 2 = 0 := by omega
  simp only [hnot6, if_false, hd0]
  norm_num
  have htrk := tracksRoundTrip fd.tracks hts []
  rw [List.append_nil] at htrk
  by_cases hg : fd.hlen > 6
  · simp only [hg, if_pos]
    rw [List.take_left' (by omega), List.drop_left' (by omega)]
    rw [htrk]
    simp [fileOf]
  · have heq : fd.hlen = 6 := by omega
    have hnil : fd.htrail = [] := by
      have : fd.htrail.length = 0 := by omega
      exact List.length_eq_zero.mp this
    simp only [hg, if_false]
    rw [hnil, List.nil_append]
    rw [htrk]
    simp [fileOf, hnil]

/-- Serializing the parsed structure of a well-formed file stream
reproduces the stream byte for byte. -/
theorem fileSer (fd : FileDesc) (hwf : fd.wf) :
    (fileOf fd).to_file = some (encodeFile fd) := by
  obtain ⟨h6, h32, hfmt, hdiv, htr, htrb, hnt, hts⟩ := hwf
  simp only [MidiFile.to_file, fileOf]
  have e1 : toBytesBE 4 fd.hlen = some (natToBytes 4 fd.hlen) := by simp [toBytesBE, h32]
  have e2 : toBytesBE 2 fd.format = some (natToBytes 2 fd.format) := by simp [toBytesBE, hfmt]
  have e3 : toBytesBE 2 fd.tracks.length = some (natToBytes 2 fd.tracks.length) := by
    simp [toBytesBE, hnt]
  have e4 : toBytesBE 2 fd.division = some (natToBytes 2 fd.division) := by
    simp [toBytesBE]
    omega
  rw [e1, e2, e3, e4, serTracks_map fd.tracks hts]
  simp [encodeFile]

/-- Each delta-time decode performs at least one read. -/
theorem parseVarLen_count_pos (acc : Nat) (s : List Nat) : 1 ≤ (parseVarLen acc s).2.1 := by
  cases s with
  | nil => simp [parseVarLen]
  | cons b rest =>
    simp only [parseVarLen]
    split <;> simp

/-- The decoded value is bounded by the number of reads: each read
contributes seven bits. -/
theorem parseVarLen_val_lt (s : List Nat) :
    ∀ acc, (parseVarLen acc s).1 < (acc + 1) * 128 ^ (parseVarLen acc s).2.1 := by
  induction s with
  | nil =>
    intro acc
    simp only [parseVarLen, pow_one]
    omega
  | cons b rest ih =>
    intro acc
    have hb : b % 128 < 128 := Nat.mod_lt _ (by norm_num)
    simp only [parseVarLen]
    split
    · dsimp only
      have h := ih (acc * 128 + b % 128)
      calc (parseVarLen (acc * 128 + b % 128) rest).1
          < (acc * 128 + b % 128 + 1) * 128 ^ (parseVarLen (acc * 128 + b % 128) rest).2.1 := h
        _ ≤ (acc + 1) * 128 * 128 ^ (parseVarLen (acc * 128 + b % 128) rest).2.1 :=
            Nat.mul_le_mul_right _ (by omega)
        _ = (acc + 1) * 128 ^ ((parseVarLen (acc * 128 + b % 128) rest).2.1 + 1) := by ring
    · simp only [pow_one]
      omega

/-- Splitting off the most significant group of a nonzero value. -/
theorem encodeVarAux_cons (fuel td : Nat) (htd : td ≠ 0) (hle : td / 128 ≤ fuel) :
    encodeVarAux (fuel + 1) td false [] =
      encodeVarAux fuel (td / 128) false [] ++ [td % 128 + 128] := by
  simp only [encodeVarAux, htd, if_false]
  rw [encodeVarAux_append _ _ _ _ hle]
  simp

/-- The encoder emits at most one byte per seven bits of the value. -/
theorem encodeVarAux_length_le (fuel : Nat) : ∀ td k, td ≤ fuel → td < 128 ^ k →
    (encodeVarAux fuel td false []).length ≤ k := by
  induction fuel with
  | zero => intro td k h hk; simp [encodeVarAux]
  | succ fuel ih =>
    intro td k h hk
    by_cases h0 : td = 0
    · simp [h0, encodeVarAux_zero]
    · have hk1 : 1 ≤ k := by
        rcases Nat.eq_zero_or_pos k with hk0 | hk0
        · subst hk0; simp only [pow_zero] at hk; omega
        · exact hk0
      have hle : td / 128 ≤ fuel := by
        have := Nat.div_lt_self (Nat.pos_of_ne_zero h0) (show 1 < 128 by norm_num)
        omega
      have hdl : td / 128 < 128 ^ (k - 1) := by
        rw [Nat.div_lt_iff_lt_mul (by norm_num)]
        calc td < 128 ^ k := hk
          _ = 128 ^ (k - 1) * 128 := by
              rw [← pow_succ]
              congr 1
              omega
      have hrec := ih (td / 128) (k - 1) hle hdl
      rw [encodeVarAux_cons fuel td h0 hle]
      simp only [List.length_append, List.length_cons, List.length_nil]
      omega

/-- The encoder output for a value below `128 ^ k` has at most `k`
bytes (for `k ≥ 1`). -/
theorem encode_td_length_le (v k : Nat) (h1 : 1 ≤ k) (h2 : v < 128 ^ k) :
    (encode_td v).length ≤ k := by
  by_cases hv : v = 0
  · subst hv
    rw [encode_td_zero]
    simpa
  · rw [encode_td_eq v hv]
    have hle : v / 128 ≤ v - 1 := by
      have := Nat.div_lt_self (Nat.pos_of_ne_zero hv) (show 1 < 128 by norm_num)
      omega
    have hdl : v / 128 < 128 ^ (k - 1) := by
      rw [Nat.div_lt_iff_lt_mul (by norm_num)]
      calc v < 128 ^ k := h2
        _ = 128 ^ (k - 1) * 128 := by
            rw [← pow_succ]
            congr 1
            omega
    have := encodeVarAux_length_le (v - 1) (v / 128) (k - 1) hle hdl
    simp only [List.length_append, List.length_cons, List.length_nil]
    omega

/-- Minimality of the encoder against the decoder: no byte sequence
that the decoder consumes entirely to the value `v` is shorter than
the encoder output for `v`. -/
theorem encode_td_min (v : Nat) (l : List Nat) (h : parseVarLen 0 l = (v, l.length, [])) :
    (encode_td v).length ≤ l.length := by
  have hcount := parseVarLen_count_pos 0 l
  rw [h] at hcount
  have hval := parseVarLen_val_lt l 0
  rw [h] at hval
  simp only [Nat.zero_add, one_mul] at hval
  exact encode_td_length_le v l.length hcount hval

/-- The encoder output ends in the low seven bits of the value, and
every earlier byte carries the continuation bit. -/
theorem encode_td_shape (v : Nat) :
    ∃ l, encode_td v = l ++ [v % 128] ∧ ∀ b ∈ l, 128 ≤ b ∧ b < 256 := by
  by_cases hv : v = 0
  · subst hv
    exact ⟨[], by simp [encode_td_zero], by simp⟩
  · have hle : v / 128 ≤ v - 1 := by
      have := Nat.div_lt_self (Nat.pos_of_ne_zero hv) (show 1 < 128 by norm_num)
      omega
    exact ⟨encodeVarAux (v - 1) (v / 128) false [], encode_td_eq v hv,
      encodeVarAux_interior_bytes (v - 1) (v / 128) hle⟩

/-- Whatever `MidiEvent.to_file` emits starts with the delta-time
encoder output for the stored `timedelta`. -/
theorem to_file_starts_with_encode_td (e : MidiEvent) (bs : List Nat)
    (h : e.to_file = some bs) : ∃ t, bs = encode_td e.timedelta ++ t := by
  unfold MidiEvent.to_file at h
  split at h
  · exact absurd h (by simp)
  · split at h
    · exact ⟨_, by rw [← (Option.some.inj h), List.append_assoc]⟩
    · split at h
      · exact absurd h (by simp)
      · split at h
        · exact ⟨_, by rw [← (Option.some.inj h), List.append_assoc, List.append_assoc,
            List.append_assoc]⟩
        · exact absurd h (by simp)

/-- Claim C4: the VarLenInt round trip.  Decoding the encoded bytes of
any value `v` from the front of any stream yields `(v, len(Encode(v)))`
and leaves the rest of the stream; `0` encodes as exactly the single
zero byte and no encoding is empty; the encoding is big-endian with
the continuation bit set on every byte except the last, which holds
the low seven bits; and it is minimal: no byte sequence fully consumed
by the decoder to the same value is shorter. -/
theorem C4_varlen_round_trip :
    (∀ (v : Nat) (rest : List Nat),
      parseVarLen 0 (encode_td v ++ rest) = (v, (encode_td v).length, rest)) ∧
    encode_td 0 = [0] ∧
    (∀ v : Nat, encode_td v ≠ []) ∧
    (∀ v : Nat, ∃ l, encode_td v = l ++ [v % 128] ∧ ∀ b ∈ l, 128 ≤ b ∧ b < 256) ∧
    (∀ (v : Nat) (l : List Nat), parseVarLen 0 l = (v, l.length, []) →
      (encode_td v).length ≤ l.length) :=
  ⟨parseVarLen_encode_td, encode_td_zero, encode_td_ne_nil, encode_td_shape, encode_td_min⟩

/-- Witness for C4 at concrete values: round trip at `v = 987654` with
a nonempty remaining stream, and minimality against the two-byte
non-minimal encoding `[0x80, 0x00]` of zero. -/
theorem C4_varlen_round_trip_witness :
    parseVarLen 0 (encode_td 987654 ++ [7, 8]) = (987654, (encode_td 987654).length, [7, 8]) ∧
    (encode_td 0).length ≤ ([128, 0] : List Nat).length :=
  ⟨C4_varlen_round_trip.1 987654 [7, 8],
   C4_varlen_round_trip.2.2.2.2 0 [128, 0] (by decide)⟩

/-- Claim C10: the delta-time decoder accepts non-minimal encodings —
prepending a `0x80` continuation byte to any decode leaves the value
unchanged and consumes one more byte — while the serializer always
re-emits the encoder output (hence the minimal form, by C4) for the
stored `timedelta`; decoding is therefore not injective: `[0x00]` and
`[0x80, 0x00]` are distinct streams both decoding to zero. -/
theorem C10_nonminimal_decode :
    (∀ (bs : List Nat) (v c : Nat) (r : List Nat), parseVarLen 0 bs = (v, c, r) →
      parseVarLen 0 (128 :: bs) = (v, c + 1, r)) ∧
    (∀ (e : MidiEvent) (bs : List Nat), e.to_file = some bs →
      ∃ t, bs = encode_td e.timedelta ++ t) ∧
    (∀ (v : Nat) (l : List Nat), parseVarLen 0 l = (v, l.length, []) →
      (encode_td v).length ≤ l.length) ∧
    parseVarLen 0 [0] = (0, 1, []) ∧ parseVarLen 0 [128, 0] = (0, 2, []) ∧
    ([0] : List Nat) ≠ [128, 0] := by
  refine ⟨?_, to_file_starts_with_encode_td, encode_td_min, by decide, by decide, by decide⟩
  intro bs v c r h
  simp only [parseVarLen]
  norm_num
  rw [h]
  exact ⟨rfl, rfl, rfl⟩

/-- Witness for C10 at a concrete decode: prepending `0x80` to the
one-byte stream `[5]`. -/
theorem C10_nonminimal_decode_witness :
    parseVarLen 0 [128, 5] = (5, 2, []) :=
  C10_nonminimal_decode.1 [5] 5 1 [] (by decide)

/-- Claim C1 (amended): for every well-formed file description — a
stream of the file grammar in which every delta-time the parser reads
is minimally encoded and every declared byte is present — parsing
succeeds, consumes the entire stream, and serializing the parsed
structure without mutation reproduces the stream byte for byte; and
each event of the grammar re-serializes to exactly the bytes consumed
for it, its consumed-byte counter matching its encoding size. -/
theorem C1_round_trip (fd : FileDesc) (hwf : fd.wf) :
    MidiFile.parse (encodeFile fd) = Except.ok (fileOf fd, []) ∧
    (fileOf fd).to_file = some (encodeFile fd) ∧
    ∀ (d : EvDesc) (tail : List Nat), d.wf →
      MidiEvent.parse (encodeEv d ++ tail) = Except.ok (evOf d, tail) ∧
      (evOf d).to_file = some (encodeEv d) ∧
      (evOf d).length = (encodeEv d).length :=
  ⟨fileParse fd hwf, fileSer fd hwf, fun d tail hd => evRoundTrip d hd tail⟩

/-- Witness for C1 at `c1demo`. -/
theorem C1_round_trip_witness :
    MidiFile.parse (encodeFile c1demo) = Except.ok (fileOf c1demo, []) ∧
    (fileOf c1demo).to_file = some (encodeFile c1demo) := by
  have hwf : c1demo.wf := by
    refine ⟨by decide, by decide, by decide, by decide, by decide, by decide, by decide, ?_⟩
    intro ds hds
    simp only [c1demo, List.mem_singleton] at hds
    subst hds
    constructor
    · intro d hd
      simp only [List.mem_cons, List.mem_singleton] at hd
      rcases hd with rfl | rfl | h
      · exact ⟨by norm_num, by norm_num, by norm_num, by norm_num⟩
      · exact ⟨by norm_num, LenEnc.last 0 (by norm_num), by simp⟩
      · simp at h
    · decide
  exact ⟨(C1_round_trip c1demo hwf).1, (C1_round_trip c1demo hwf).2.1⟩

set_option maxRecDepth 8000 in
/-- Counterexample to C1 as stated: the well-formed stream `c1cx` is
accepted by the parser, consumed entirely, and serializing the parsed
structure without any mutation produces `c1cxOut`, which differs from
the input. -/
theorem C1_round_trip_counterexample :
    (MidiFile.parse c1cx).map (fun p => (p.1.to_file, p.2)) =
      Except.ok (some c1cxOut, ([] : List Nat)) ∧
    c1cxOut ≠ c1cx := by
  constructor
  · decide
  · decide

/-- Claim C2 evaluated at the failing input `c2_input`: the source
accumulates the payload length as a plain sum of seven-bit groups
(`ignore_num += ignore_raw & 0x7F`, no shift), so for the length field
`[0x81, 0x00]` it computes `1` and consumes a single payload byte
(`0xAA`), leaving `0xBB` unread, whereas the VarLenInt decoding of the
same field — as the delta-time decoder would compute it — is `128`. -/
theorem C2_meta_length_eval :
    MidiEvent.parse c2_input =
      Except.ok ({ timedelta := 0, note := none, velocity := none, channel := none,
                   event_info := 255, trailing_ignore := [1, 129, 0, 170],
                   length := 6 }, [187]) ∧
    (parseIgnoreLen [129, 0, 170, 187]).1 = 1 ∧
    parseVarLen 0 [129, 0] = (128, 2, []) ∧
    (parseIgnoreLen [129, 0, 170, 187]).1 ≠ (parseVarLen 0 [129, 0]).1 := by
  refine ⟨by decide, by decide, by decide, by decide⟩

/-- Claim C3 evaluated at the failing input `c3_input`: the file is
accepted (division top bit clear), the claim's value
`division & 0x7FFF` is `16384`, but the stored `per_quarter_note` is
`division & 0x3FFF = 0` — the source masks with fourteen one bits
(`0b11111111111111`), dropping bit 14. -/
theorem C3_pqn_mask_eval :
    MidiFile.parse c3_input =
      Except.ok ({ length := 6, format := 0, num_tracks := 0, division := 16384,
                   division_type := 0, per_quarter_note := 0, trailing := [],
                   tracks := [] }, []) ∧
    16384 % 32768 = (16384 : Nat) ∧
    (0 : Nat) ≠ 16384 := by
  refine ⟨by decide, by decide, by decide⟩

/-- Claim C5: the documented rejection cases.  A stream whose first
four bytes are not `MThd` is rejected with `FormatError`; a stream
with a valid header whose division field has the top bit set is
rejected with `UnsupportedTimingError`; an event whose status byte has
type nibble `0x0`-`0x7` (in particular any data byte, so the
running-status convention) is rejected with `MalformedEventError`.
Each rejection is an `Except.error`, which carries no partial
result. -/
theorem C5_rejections :
    (∀ s : List Nat, s.take 4 ≠ [77, 84, 104, 100] →
      MidiFile.parse s = Except.error MIDIErr.FormatError) ∧
    (∀ (hl fm nt dv : Nat) (rest : List Nat),
      hl < 4294967296 → 6 ≤ hl → fm < 65536 → nt < 65536 → 32768 ≤ dv → dv < 65536 →
      MidiFile.parse ([77, 84, 104, 100] ++ natToBytes 4 hl ++ natToBytes 2 fm
          ++ natToBytes 2 nt ++ natToBytes 2 dv ++ rest) =
        Except.error MIDIErr.UnsupportedTimingError) ∧
    (∀ (td st : Nat) (rest : List Nat), st / 16 ≤ 7 →
      MidiEvent.parse (encode_td td ++ st :: rest) =
        Except.error MIDIErr.MalformedEventError) := by
  refine ⟨?_, ?_, ?_⟩
  · intro s h
    simp only [MidiFile.parse]
    simp [h]
  · intro hl fm nt dv rest h32 h6 hfm hnt hdv1 hdv2
    have hshape : [77, 84, 104, 100] ++ natToBytes 4 hl ++ natToBytes 2 fm
        ++ natToBytes 2 nt ++ natToBytes 2 dv ++ rest
        = [77, 84, 104, 100] ++ (natToBytes 4 hl ++ (natToBytes 2 fm
          ++ (natToBytes 2 nt ++ (natToBytes 2 dv ++ rest)))) := by
      simp
    rw [hshape]
    simp only [MidiFile.parse]
    rw [List.take_left' (by rfl), List.drop_left' (by rfl)]
    rw [List.take_left' (natToBytes_length 4 _), List.drop_left' (natToBytes_length 4 _)]
    rw [bytesToNat_natToBytes 4 _ h32]
    rw [List.take_left' (natToBytes_length 2 _), List.drop_left' (natToBytes_length 2 _)]
    rw [bytesToNat_natToBytes 2 _ hfm]
    rw [List.take_left' (natToBytes_length 2 _), List.drop_left' (natToBytes_length 2 _)]
    rw [bytesToNat_natToBytes 2 _ hnt]
    rw [List.take_left' (natToBytes_length 2 _), List.drop_left' (natToBytes_length 2 _)]
    rw [bytesToNat_natToBytes 2 _ hdv2]
    have h1 : ¬ hl < 6 := by omega
    have h2 : dv / 32768 % 2 = 1 := by omega
    simp [h1, h2]
  · intro td st rest h
    simp only [MidiEvent.parse, parseVarLen_encode_td]
    simp only [List.take_succ_cons, List.take_zero, bytesToNat_singleton,
      List.drop_succ_cons, List.drop_zero]
    have h15 : ¬ st / 16 = 15 := by omega
    have hA : ¬ (st / 16 = 10 ∨ st / 16 = 11 ∨ st / 16 = 14) := by
      push_neg
      omega
    have hC : ¬ (st / 16 = 12 ∨ st / 16 = 13) := by
      push_neg
      omega
    have h89 : ¬ (st / 16 = 8 ∨ st / 16 = 9) := by
      push_neg
      omega
    simp [h15, hA, hC, h89]

/-- Witness for C5 at concrete inputs: the four-byte id `XYZZ`, a
header with division `0x8000`, and a data byte `0x40` in status
position after a one-byte delta-time. -/
theorem C5_rejections_witness :
    MidiFile.parse ([88, 89, 90, 90] ++ [0, 0, 0, 6, 0, 0, 0, 0, 0, 96]) =
      Except.error MIDIErr.FormatError ∧
    MidiFile.parse ([77, 84, 104, 100] ++ natToBytes 4 6 ++ natToBytes 2 0
        ++ natToBytes 2 0 ++ natToBytes 2 32768 ++ []) =
      Except.error MIDIErr.UnsupportedTimingError ∧
    MidiEvent.parse (encode_td 0 ++ 64 :: [22, 33]) =
      Except.error MIDIErr.MalformedEventError :=
  ⟨C5_rejections.1 _ (by decide),
   C5_rejections.2.1 6 0 0 32768 [] (by norm_num) (by norm_num) (by norm_num)
     (by norm_num) (by norm_num) (by norm_num),
   C5_rejections.2.2 0 64 [22, 33] (by norm_num)⟩

/-- Claim C6: track serialization is exactly the chunk id `MTrk`, the
four-byte big-endian length of the concatenated serialized event
bytes, and that concatenation.  The length is computed from the
just-serialized body (`len(result)` in the source); a `MidiTrack`
holds only its event list, so no originally declared length even
exists to be copied, and the statement applies to any event list,
including one obtained by insertion, removal or resizing.  The second
conjunct checks the emitted four-byte field decodes back to the body
size. -/
theorem C6_track_serialize (t : MidiTrack) (body : List Nat)
    (h : serEvents t.events = some body) (hlen : body.length < 4294967296) :
    MidiTrack.to_file t = some ([77, 84, 114, 107] ++ natToBytes 4 body.length ++ body) ∧
    bytesToNat (natToBytes 4 body.length) = body.length := by
  constructor
  · simp only [MidiTrack.to_file, h]
    have he : toBytesBE 4 body.length = some (natToBytes 4 body.length) := by
      simp [toBytesBE, hlen]
    rw [he]
  · exact bytesToNat_natToBytes 4 _ hlen

/-- Witness for C6: a track holding a single End of Track meta event
(four serialized bytes, so the emitted length field is
`[0, 0, 0, 4]`). -/
theorem C6_track_serialize_witness :
    MidiTrack.to_file
        { events := [{ timedelta := 0, note := none, velocity := none, channel := none,
                       event_info := 255, trailing_ignore := [47, 0], length := 4 }] } =
      some ([77, 84, 114, 107] ++ natToBytes 4 ([0, 255, 47, 0] : List Nat).length
        ++ [0, 255, 47, 0]) :=
  (C6_track_serialize _ [0, 255, 47, 0] (by decide) (by decide)).1

/-- Claim C7: serialization of an in-memory event cannot fail when the
entity invariants hold — `note` and `velocity` both absent or both
present (and, per the data model, single bytes; a non-negative
delta-time is enforced by the `Nat` type of `timedelta`, matching the
invariant) — and whatever note and velocity values are present are
emitted verbatim, without clamping or correction, even when outside
`0`-`127`. -/
theorem C7_event_serialize_total (e : MidiEvent)
    (hnv : (e.note = none ∧ e.velocity = none) ∨
      (∃ n v, e.note = some n ∧ e.velocity = some v ∧ n < 256 ∧ v < 256))
    (hei : e.event_info < 256) :
    e.to_file = some (encode_td e.timedelta ++ [e.event_info]
      ++ e.note.toList ++ e.velocity.toList ++ e.trailing_ignore) := by
  rcases hnv with ⟨hn, hv⟩ | ⟨n, v, hn, hv, hnb, hvb⟩
  · simp [MidiEvent.to_file, hn, hv, toBytesBE_one, hei]
  · simp [MidiEvent.to_file, hn, hv, toBytesBE_one, hei, hnb, hvb]

/-- Witness for C7: an event carrying the out-of-range note value
`200`, serialized faithfully as the byte `200`. -/
theorem C7_event_serialize_total_witness :
    MidiEvent.to_file
        { timedelta := 5, note := some 200, velocity := some 5, channel := none,
          event_info := 144, trailing_ignore := [], length := 0 } =
      some ([5] ++ [144] ++ [200] ++ [5] ++ []) :=
  C7_event_serialize_total _ (Or.inr ⟨200, 5, rfl, rfl, by norm_num, by norm_num⟩)
    (by norm_num)

/-- Claim C8: when a prefix of successfully parsed events partitions
the declared length exactly — their consumed-byte counts sum to the
declared length, and no event overshoots the remaining budget (every
proper prefix sums below it) — the track event loop terminates with
exactly those events, stopping when the countdown reaches zero, and
leaves the rest of the stream.  (Termination of the loop on every
finite stream is what lets `parseEvents` be defined at all:
`MidiEvent.parse_rest_lt` shows each iteration strictly shrinks the
stream.) -/
theorem C8_track_partition (s : List Nat) (evs : List MidiEvent) (rest : List Nat)
    (hc : ChainParses s evs rest) :
    ∀ len : Nat, (evs.map MidiEvent.length).sum = len →
      (∀ k, k < evs.length → ((evs.take k).map MidiEvent.length).sum < len) →
      parseEvents (len : Int) s = Except.ok (evs, rest) := by
  induction hc with
  | nil s0 =>
    intro len hsum hpre
    simp only [List.map_nil, List.sum_nil] at hsum
    rw [parseEvents_eq]
    simp [← hsum]
  | cons hp hchain ih =>
    rename_i s0 e s2 evs0 rest0
    intro len hsum hpre
    have h0 : 0 < len := by
      have := hpre 0 (by simp)
      simpa using this
    rw [parseEvents_eq]
    have hne : ¬ ((len : Int) = 0) := by
      simp only [Int.natCast_eq_zero]
      omega
    simp only [hne, if_false]
    rw [hp]
    dsimp only
    have hle : e.length ≤ len := by
      simp only [List.map_cons, List.sum_cons] at hsum
      omega
    have harith : (len : Int) - (e.length : Int) = ((len - e.length : Nat) : Int) := by
      omega
    have hsum2 : (evs0.map MidiEvent.length).sum = len - e.length := by
      simp only [List.map_cons, List.sum_cons] at hsum
      omega
    have hpre2 : ∀ k, k < evs0.length →
        ((evs0.take k).map MidiEvent.length).sum < len - e.length := by
      intro k hk
      have := hpre (k + 1) (by simp only [List.length_cons]; omega)
      simp only [List.take_succ_cons, List.map_cons, List.sum_cons] at this
      omega
    rw [harith, ih (len - e.length) hsum2 hpre2]

/-- Witness for C8: a four-byte track body holding one note-on event,
declared length four. -/
theorem C8_track_partition_witness :
    parseEvents (4 : Int) [0, 144, 60, 64] =
      Except.ok ([{ timedelta := 0, note := some 60, velocity := some 64,
                    channel := some 0, event_info := 144, trailing_ignore := [],
                    length := 4 }], []) := by
  have hc : ChainParses [0, 144, 60, 64]
      [{ timedelta := 0, note := some 60, velocity := some 64, channel := some 0,
         event_info := 144, trailing_ignore := [], length := 4 }] [] :=
    ChainParses.cons (by decide) (ChainParses.nil [])
  refine C8_track_partition _ _ _ hc 4 (by decide) ?_
  intro k hk
  have hk0 : k = 0 := by
    simp only [List.length_cons, List.length_nil] at hk
    omega
  subst hk0
  decide

/-- Claim C9: the pitch editing operation maps every event with a note
to the same event with its note replaced by
`max(0, min(127, note + amount))` — hence within `0`-`127` — and
leaves every event without a note entirely unchanged, for any integer
shift amount. -/
theorem C9_pitch_clamp (amount : Int) (ts : List MidiTrack) :
    List.Forall₂ (fun t t2 =>
      List.Forall₂ (fun e e2 =>
        (e.note = none → e2 = e) ∧
        (∀ n, e.note = some n →
          e2 = { e with note := some (max 0 (min 127 ((n : Int) + amount))).toNat } ∧
          ∀ m, e2.note = some m → m ≤ 127))
        t.events t2.events)
      ts (pitchTracks amount ts) := by
  unfold pitchTracks
  rw [List.forall₂_map_right_iff]
  apply List.forall₂_same.mpr
  intro t ht
  show List.Forall₂ _ t.events (t.events.map (pitchEvent amount))
  rw [List.forall₂_map_right_iff]
  apply List.forall₂_same.mpr
  intro e he
  constructor
  · intro hnone
    simp [pitchEvent, hnone]
  · intro n hn
    constructor
    · simp [pitchEvent, hn, clampNote]
    · intro m hm
      simp only [pitchEvent, hn] at hm
      have hme : m = (max 0 (min 127 ((n : Int) + amount))).toNat := (Option.some.inj hm).symm
      subst hme
      have h1 : max 0 (min 127 ((n : Int) + amount)) ≤ 127 :=
        max_le (by norm_num) (min_le_left _ _)
      exact Int.toNat_le.mpr (by exact_mod_cast h1)

/-- Witness for C9 at a concrete large negative shift. -/
theorem C9_pitch_clamp_witness :
    List.Forall₂ (fun (t t2 : MidiTrack) =>
      List.Forall₂ (fun (e e2 : MidiEvent) =>
        (e.note = none → e2 = e) ∧
        (∀ n, e.note = some n →
          e2 = { e with note := some (max 0 (min 127 ((n : Int) + (-200)))).toNat } ∧
          ∀ m, e2.note = some m → m ≤ 127))
        t.events t2.events)
      [{ events := [{ timedelta := 0, note := some 60, velocity := some 64,
                      channel := some 0, event_info := 144, trailing_ignore := [],
                      length := 4 }] }]
      (pitchTracks (-200)
        [{ events := [{ timedelta := 0, note := some 60, velocity := some 64,
                        channel := some 0, event_info := 144, trailing_ignore := [],
                        length := 4 }] }]) :=
  C9_pitch_clamp (-200) _
